import Mathlib

/-!
A shallow embedding of the triples-management subsystem of the repository
(`src/pykeen/triples/triples_factory.py` and `src/pykeen/triples/instances.py`),
together with theorems settling the specification claims.

Tensors are modelled as lists: an (n, 3) integer tensor becomes a list of
3-tuples (or, for raw constructor input, a list of integer rows); the metadata
dictionary becomes a partial map from String keys; label-to-ID dicts become
association lists with unique keys.
-/

namespace Pykeen

/-- An ID-based triple (head_id, relation_id, tail_id) of a validated factory. -/
abbrev Triple := ℕ × ℕ × ℕ

/-- A raw integer triple, before range validation. -/
abbrev TripleZ := ℤ × ℤ × ℤ

/-- A metadata dictionary (Python Mapping from str), with integer values. -/
abbrev Meta := String → Option ℤ

/-- The empty metadata dictionary. -/
def emptyMeta : Meta := fun _ => none

/-- Union of two Python dicts with double-splat semantics: on a key collision the
value from the later dict b wins. -/
def dictUnion (a b : Meta) : Meta := fun k => (b k).orElse fun _ => a k

/-- Tensor dtypes relevant to construction validation. -/
inductive DType where
  | int
  | float
  | complex
deriving DecidableEq

/-- Whether the dtype is rejected by the constructor (floating-point or complex,
the checks is_complex or is_floating_point). -/
def DType.invalid : DType → Bool
  | .float => true
  | .complex => true
  | .int => false

/-- Errors raised by the embedded factory operations (Python exceptions). -/
inductive FactoryError where
  | invalidShape
  | invalidDtype (dtype : DType)
  | invalidRange (cmin cmax : TripleZ)
  | emptyLabeling
  | numEntitiesMismatch (idx : ℕ)
  | numRelationsMismatch (idx : ℕ)
  | inverseFlagMismatch (idx : ℕ)
  | entityMapMismatch (idx : ℕ)
  | relationMapMismatch (idx : ℕ)
  | missingId
deriving DecidableEq

/-- Entity/relation counts and the inverse-triple policy (class KGInfo). -/
structure KGInfo where
  num_entities : ℕ
  real_num_relations : ℕ
  num_relations : ℕ
  create_inverse_triples : Bool

/-- KGInfo constructor: stores the given relation count as the real one and doubles
num_relations when inverse triples are to be created. -/
def KGInfo.make (num_entities num_relations : ℕ) (create_inverse_triples : Bool) : KGInfo where
  num_entities := num_entities
  real_num_relations := num_relations
  num_relations := if create_inverse_triples then num_relations * 2 else num_relations
  create_inverse_triples := create_inverse_triples

/-- A factory owning an ID-based triple tensor (class CoreTriplesFactory). -/
structure CoreTriplesFactory extends KGInfo where
  mapped_triples : List Triple
  metadata : Meta

/-- Check that all IDs are in range (function valid_triple_id_range): entries
nonnegative, head/tail below num_entities, relation below num_relations. -/
def valid_triple_id_range (mapped_triples : List TripleZ) (num_entities num_relations : ℕ) : Bool :=
  (mapped_triples.all fun x => decide (0 ≤ x.1) && decide (0 ≤ x.2.1) && decide (0 ≤ x.2.2)) &&
  (mapped_triples.all fun x => decide (x.1 < (num_entities : ℤ)) && decide (x.2.2 < (num_entities : ℤ))) &&
  (mapped_triples.all fun x => decide (x.2.1 < (num_relations : ℤ)))

/-- Read one raw row as a triple; rows of a length other than 3 are rejected by the
shape check before this is used. -/
def row3 : List ℤ → TripleZ
  | [h, r, t] => (h, r, t)
  | _ => (0, 0, 0)

/-- Column-wise minimum (torch min over dim 0), reported in the range error. -/
def colMin : List TripleZ → TripleZ
  | [] => (0, 0, 0)
  | [x] => x
  | x :: rest =>
    let m := colMin rest
    (min x.1 m.1, min x.2.1 m.2.1, min x.2.2 m.2.2)

/-- Column-wise maximum (torch max over dim 0), reported in the range error. -/
def colMax : List TripleZ → TripleZ
  | [] => (0, 0, 0)
  | [x] => x
  | x :: rest =>
    let m := colMax rest
    (max x.1 m.1, max x.2.1 m.2.1, max x.2.2 m.2.2)

/-- Conversion of a validated row to torch.long; validation guarantees
nonnegativity, so toNat is lossless where it is used. -/
def toNatTriple (x : TripleZ) : Triple := (x.1.toNat, x.2.1.toNat, x.2.2.toNat)

/-- Validated construction of a CoreTriplesFactory (its dunder init): takes a raw list
of integer rows together with its dtype; checks the shape (three columns; an empty
row list models an empty (0, 3) tensor), the dtype (no floating-point or complex
IDs), and the ID range against the declared bounds, in source order. -/
def CoreTriplesFactory.init (rows : List (List ℤ)) (dtype : DType) (num_entities num_relations : ℕ)
    (create_inverse_triples : Bool) (metadata : Meta) : Except FactoryError CoreTriplesFactory :=
  if !(rows.all fun r => r.length == 3) then .error .invalidShape
  else if dtype.invalid then .error (.invalidDtype dtype)
  else
    let mt := rows.map row3
    if valid_triple_id_range mt num_entities num_relations then
      .ok { toKGInfo := KGInfo.make num_entities num_relations create_inverse_triples
            mapped_triples := mt.map toNatTriple
            metadata := metadata }
    else .error (.invalidRange (colMin mt) (colMax mt))

/-- View validated ID triples as raw constructor input (an (n, 3) long tensor). -/
def ofTriples (mapped_triples : List Triple) : List (List ℤ) :=
  mapped_triples.map fun x => [(x.1 : ℤ), (x.2.1 : ℤ), (x.2.2 : ℤ)]

/-- Internal construction from already-mapped ID triples (always a long tensor). -/
def CoreTriplesFactory.make (mapped_triples : List Triple) (num_entities num_relations : ℕ)
    (create_inverse_triples : Bool) (metadata : Meta) : Except FactoryError CoreTriplesFactory :=
  CoreTriplesFactory.init (ofTriples mapped_triples) .int num_entities num_relations
    create_inverse_triples metadata

/-- Number of stored triples (property num_triples). -/
def CoreTriplesFactory.num_triples (tf : CoreTriplesFactory) : ℕ := tf.mapped_triples.length

/-- Method clone_and_exchange_triples: a new factory with this factory's counts
(passing real_num_relations to the constructor), the given triples, the optionally
flipped inverse flag, and a metadata dict built as the Python double-splat union
with extra_metadata first and the kept metadata second. Python dict union lets the
later operand win on key collisions, so the kept metadata wins here. -/
def CoreTriplesFactory.clone_and_exchange_triples (tf : CoreTriplesFactory)
    (mapped_triples : List Triple) (extra_metadata : Option Meta)
    (keep_metadata : Bool) (create_inverse_triples : Option Bool) :
    Except FactoryError CoreTriplesFactory :=
  CoreTriplesFactory.make mapped_triples tf.num_entities tf.real_num_relations
    (create_inverse_triples.getD tf.create_inverse_triples)
    (dictUnion (extra_metadata.getD emptyMeta) (if keep_metadata then tf.metadata else emptyMeta))

/-- Invariant of constructed factories: triple IDs are within bounds (relations are
bounded by the real relation count, because the constructor validates against the
relation count before doubling), and the relation count is consistent with the
inverse-triple flag. -/
def CoreTriplesFactory.WF (tf : CoreTriplesFactory) : Prop :=
  (∀ x ∈ tf.mapped_triples,
    x.1 < tf.num_entities ∧ x.2.2 < tf.num_entities ∧ x.2.1 < tf.real_num_relations) ∧
  tf.num_relations =
    (if tf.create_inverse_triples then tf.real_num_relations * 2 else tf.real_num_relations)

/-- Compatibility of two factories as checked by merge: equal entity counts, relation
counts, and inverse-triple flags. -/
def CoreTriplesFactory.compatible (tf other : CoreTriplesFactory) : Prop :=
  other.num_entities = tf.num_entities ∧ other.num_relations = tf.num_relations ∧
  other.create_inverse_triples = tf.create_inverse_triples

/-- Check loop of CoreTriplesFactory.merge, scanning the other factories in order and
reporting the first mismatch together with its operand index. -/
def CoreTriplesFactory.mergeCheck (tf : CoreTriplesFactory) :
    ℕ → List CoreTriplesFactory → Option FactoryError
  | _, [] => none
  | i, other :: rest =>
    if other.num_entities ≠ tf.num_entities then some (.numEntitiesMismatch i)
    else if other.num_relations ≠ tf.num_relations then some (.numRelationsMismatch i)
    else if other.create_inverse_triples ≠ tf.create_inverse_triples then
      some (.inverseFlagMismatch i)
    else tf.mergeCheck (i + 1) rest

/-- Method merge: returns self for an empty operand list, otherwise concatenates the
triples of compatible factories without deduplication via
clone_and_exchange_triples, or raises the configuration-mismatch error naming the
offending operand. -/
def CoreTriplesFactory.merge (tf : CoreTriplesFactory) (others : List CoreTriplesFactory) :
    Except FactoryError CoreTriplesFactory :=
  match others with
  | [] => .ok tf
  | _ =>
    match tf.mergeCheck 0 others with
    | some e => .error e
    | none =>
      tf.clone_and_exchange_triples
        (tf.mapped_triples ++ (others.map CoreTriplesFactory.mapped_triples).flatten)
        none true none

/-- The operand index named by a configuration-mismatch or label-mismatch error. -/
def FactoryError.mismatchIndex : FactoryError → Option ℕ
  | .numEntitiesMismatch i => some i
  | .numRelationsMismatch i => some i
  | .inverseFlagMismatch i => some i
  | .entityMapMismatch i => some i
  | .relationMapMismatch i => some i
  | _ => none

/-- Method split. The underlying splitting routine (pykeen.triples.splitting.split) is
not part of the sources; its output partition is taken here as the argument parts.
Modelled from the spec: the routine returns a list of disjoint triple subsets, and
split wraps each into a clone of this factory, where the first (training) part
keeps the source's inverse-triple flag (passing None) and every later part forces
the flag to False. -/
def CoreTriplesFactory.split (tf : CoreTriplesFactory) (parts : List (List Triple)) :
    Except FactoryError (List CoreTriplesFactory) :=
  parts.enum.mapM fun p =>
    tf.clone_and_exchange_triples p.2 none true (if p.1 = 0 then none else some false)

/-- Insertion of an element into a list sorted ascending by le. -/
def insertLe {α : Type} (le : α → α → Bool) (a : α) : List α → List α
  | [] => [a]
  | b :: rest => if le a b then a :: b :: rest else b :: insertLe le a rest

/-- Insertion sort, used to model the sorted outputs of np.unique, torch unique and
Python sorted (the sorting algorithm itself is unobservable; only the sorted
result matters). -/
def sortLe {α : Type} (le : α → α → Bool) : List α → List α
  | [] => []
  | a :: rest => insertLe le a (sortLe le rest)

/-- Sorted list of the distinct values of an ID tensor (torch Tensor.unique). -/
def uniqueNat (x : List ℕ) : List ℕ := sortLe (fun a b => decide (a ≤ b)) x.dedup

/-- Modelled from the spec: function get_num_ids (in pykeen.triples.utils, not under
the sources) infers the number of IDs as 1 + the maximum observed ID. -/
def get_num_ids (x : List ℕ) : ℕ :=
  match x with
  | [] => 0
  | _ => x.foldr max 0 + 1

/-- Renumbering vector for ID condensation (class Condenser): condensation is none for
the identity condenser, otherwise a dense vector mapping each old ID to its new ID,
with -1 for dropped IDs. -/
structure Condenser where
  condensation : Option (List ℤ)

/-- The empty condensation, a nop (classmethod empty). -/
def Condenser.empty : Condenser := ⟨none⟩

/-- Classmethod Condenser.make: identity when disabled or the input is empty, or when
the present IDs are already exactly the contiguous range 0..k-1; otherwise scatter
0..m-1 onto the ascending present IDs (torch scatter with the sorted unique IDs as
index writes position j to entry unique[j], i.e. each present ID maps to its rank)
and map absent IDs to -1. -/
def Condenser.make (x : List ℕ) (enable : Bool) : Condenser :=
  if !enable || x.isEmpty then Condenser.empty
  else
    let k := get_num_ids x
    let unique_entities := uniqueNat x
    if unique_entities = List.range k then Condenser.empty
    else
      Condenser.mk (some ((List.range k).map fun old =>
        if old ∈ unique_entities then (unique_entities.indexOf old : ℤ) else -1))

/-- Dunder bool of Condenser: truthy iff not the identity. -/
def Condenser.toBool (c : Condenser) : Bool := c.condensation.isSome

/-- Dunder call of Condenser: apply the condensation to an ID tensor; encountering a
dropped ID is fatal (and an ID beyond the vector is a torch indexing error,
collapsed here into the same fatal error). -/
def Condenser.apply (c : Condenser) (x : List ℕ) : Except FactoryError (List ℕ) :=
  match c.condensation with
  | none => .ok x
  | some y =>
    if x.any fun i => y.length ≤ i then .error .missingId
    else
      let mapped := x.map fun i => y.getD i (-1)
      if mapped.any fun v => decide (v < 0) then .error .missingId
      else .ok (mapped.map Int.toNat)

/-- A labeled triple (head label, relation label, tail label). -/
abbrev LTriple := String × String × String

/-- A label-to-ID mapping, modelling a Python dict as an association list with unique
keys. -/
abbrev LabelMap := List (String × ℕ)

/-- Code-point comparison of character lists; Lean's builtin String order does not
reduce in the kernel, so the Python lexicographic string order is re-implemented
over the character lists. -/
def charListLt : List Char → List Char → Bool
  | [], [] => false
  | [], _ :: _ => true
  | _ :: _, [] => false
  | a :: as, b :: bs =>
    if a.val < b.val then true else if b.val < a.val then false else charListLt as bs

/-- Strict lexicographic string comparison by code points (the Python string order). -/
def strLt (a b : String) : Bool := charListLt a.data b.data

/-- Non-strict lexicographic string comparison. -/
def strLe (a b : String) : Bool := strLt a b || a == b

/-- Function create_entity_mapping: the sorted set of head and tail labels,
enumerated in order. -/
def create_entity_mapping (triples : List LTriple) : LabelMap :=
  let entity_labels := sortLe strLe ((triples.map fun t => t.1) ++ (triples.map fun t => t.2.2)).dedup
  entity_labels.enum.map fun p => (p.2, p.1)

/-- The reserved suffix marking synthetic inverse relations. -/
def INVERSE_SUFFIX : String := "_inverse"

/-- Whether a relation label ends with the reserved inverse suffix. -/
def hasInverseSuffix (r : String) : Bool := INVERSE_SUFFIX.data.isSuffixOf r.data

/-- Sort key used by create_relation_mapping: the label with the inverse suffix
stripped, then a flag for carrying the suffix, so each relation sorts adjacent to
its inverse-suffixed counterpart with the plain one first. -/
def relSortKey (r : String) : List Char × Bool :=
  if hasInverseSuffix r then (r.data.take (r.data.length - INVERSE_SUFFIX.data.length), true)
  else (r.data, false)

/-- Order on relation labels induced by relSortKey, compared lexicographically. -/
def relLe (a b : String) : Bool :=
  let ka := relSortKey a
  let kb := relSortKey b
  charListLt ka.1 kb.1 || (ka.1 == kb.1 && (!ka.2 || kb.2))

/-- Function create_relation_mapping: the set of relation labels sorted by the
inverse-suffix-aware key, enumerated in order. -/
def create_relation_mapping (relations : List String) : LabelMap :=
  (sortLe relLe relations.dedup).enum.map fun p => (p.2, p.1)

/-- Dictionary get with default -1 (the vectorized mapping.get lookup of
the function _map_triples_elements_to_ids). -/
def lookupOrNeg (m : LabelMap) (k : String) : ℤ :=
  match List.lookup k m with
  | some v => (v : ℤ)
  | none => -1

/-- Lexicographic order on ID triples, the row order of np.unique over rows. -/
def tripleLe (a b : Triple) : Bool :=
  decide (a.1 < b.1) ||
    (a.1 == b.1 && (decide (a.2.1 < b.2.1) || (a.2.1 == b.2.1 && decide (a.2.2 ≤ b.2.2))))

/-- Sorted distinct rows (np.unique over the row axis). -/
def uniqueRows (l : List Triple) : List Triple := sortLe tripleLe l.dedup

/-- Function _map_triples_elements_to_ids: each label-based row is looked up (missing
labels yield -1), rows containing any -1 are filtered out, and the result is
deduplicated and sorted by np.unique, which reorders rows. -/
def map_triples_elements_to_ids (triples : List LTriple)
    (entity_to_id relation_to_id : LabelMap) : List Triple :=
  if triples.isEmpty then []
  else
    let rows := triples.map fun t =>
      (lookupOrNeg entity_to_id t.1, lookupOrNeg relation_to_id t.2.1,
        lookupOrNeg entity_to_id t.2.2)
    let kept := rows.filter fun x => decide (0 ≤ x.1) && decide (0 ≤ x.2.1) && decide (0 ≤ x.2.2)
    uniqueRows (kept.map toNatTriple)

/-- Class Labeling: a label-to-ID mapping together with its precomputed inverse. The
inverse is computed by invert_mapping (in pykeen.utils, not under the sources),
modelled from the spec: the derived inverse map from IDs to labels. -/
structure Labeling where
  label_to_id : LabelMap
  id_to_label : List (ℕ × String)

/-- Build a Labeling from a label-to-ID mapping (the dataclass post-init hook). -/
def Labeling.make (label_to_id : LabelMap) : Labeling :=
  ⟨label_to_id, label_to_id.map fun p => (p.2, p.1)⟩

/-- Method Labeling.label on a single ID: an ID absent from the map yields the unknown
label; never raises. -/
def Labeling.label (lab : Labeling) (i : ℕ) (unknown_label : String) : String :=
  (List.lookup i lab.id_to_label).getD unknown_label

/-- Property max_id: one past the maximum mapped ID (Python max over the dict values,
which requires a nonempty dict; the factory constructor guards emptiness). -/
def Labeling.max_id (lab : Labeling) : ℕ := (lab.label_to_id.map fun p => p.2).foldr max 0 + 1

/-- Class TriplesFactory: a CoreTriplesFactory plus entity and relation labelings. -/
structure TriplesFactory extends CoreTriplesFactory where
  entity_labeling : Labeling
  relation_labeling : Labeling

/-- Property entity_to_id. -/
def TriplesFactory.entity_to_id (tf : TriplesFactory) : LabelMap :=
  tf.entity_labeling.label_to_id

/-- Property relation_to_id. -/
def TriplesFactory.relation_to_id (tf : TriplesFactory) : LabelMap :=
  tf.relation_labeling.label_to_id

/-- Constructor of TriplesFactory on the path taken by from_labeled_triples, where no
explicit counts are passed: infers num_entities and num_relations from the
labelings (Python max raises on an empty labeling, modelled as an error), then
validates through the core constructor. -/
def TriplesFactory.init (mapped_triples : List Triple) (entity_to_id relation_to_id : LabelMap)
    (create_inverse_triples : Bool) (metadata : Meta) : Except FactoryError TriplesFactory :=
  if entity_to_id.isEmpty || relation_to_id.isEmpty then .error .emptyLabeling
  else
    let el := Labeling.make entity_to_id
    let rl := Labeling.make relation_to_id
    match CoreTriplesFactory.init (ofTriples mapped_triples) .int el.max_id rl.max_id
      create_inverse_triples metadata with
    | .error e => .error e
    | .ok core => .ok ⟨core, el, rl⟩

/-- Modelled from the spec: compact_mapping (in pykeen.utils, not under the sources)
renumbers the mapping values to be consecutive, preserving their relative order. -/
def compact_mapping (m : LabelMap) : LabelMap :=
  (sortLe (fun a b => decide (a.2 ≤ b.2)) m).enum.map fun p => (p.2.1, p.1)

/-- Classmethod from_labeled_triples, with the default compact_id=True and optional
caller-supplied mappings: optionally filters out triples whose relation label
carries the inverse suffix, builds the entity/relation mappings when not given,
compacts them, maps every row to IDs and constructs the factory. -/
def TriplesFactory.from_labeled_triples (triples : List LTriple)
    (create_inverse_triples : Bool) (entity_to_id relation_to_id : Option LabelMap)
    (filter_out_candidate_inverse_relations : Bool) (metadata : Meta) :
    Except FactoryError TriplesFactory :=
  let kept :=
    if filter_out_candidate_inverse_relations then
      triples.filter fun t => !hasInverseSuffix t.2.1
    else triples
  let e2i := compact_mapping (entity_to_id.getD (create_entity_mapping kept))
  let r2i := compact_mapping
    (relation_to_id.getD (create_relation_mapping (kept.map fun t => t.2.1)))
  TriplesFactory.init (map_triples_elements_to_ids kept e2i r2i) e2i r2i
    create_inverse_triples metadata

/-- Method label_triples: ID-based triples to label-based ones, column-wise, with the
unknown sentinels for entities and relations; the empty input short-circuits. -/
def TriplesFactory.label_triples (tf : TriplesFactory) (triples : List Triple)
    (unknown_entity_label unknown_relation_label : String) : List LTriple :=
  if triples.isEmpty then []
  else triples.map fun x =>
    (tf.entity_labeling.label x.1 unknown_entity_label,
      tf.relation_labeling.label x.2.1 unknown_relation_label,
      tf.entity_labeling.label x.2.2 unknown_entity_label)

/-- Method map_triples: label-based triples to ID-based ones through this factory's
own mappings. -/
def TriplesFactory.map_triples (tf : TriplesFactory) (triples : List LTriple) : List Triple :=
  map_triples_elements_to_ids triples tf.entity_to_id tf.relation_to_id

/-- Python dict equality for label maps: both contain the same keys with the same
values (insertion order is irrelevant). -/
def dictEqB (a b : LabelMap) : Bool :=
  (a.all fun p => List.lookup p.1 b == some p.2) && (b.all fun p => List.lookup p.1 a == some p.2)

/-- Label-map check loop of TriplesFactory.merge: for each operand in order, first the
entity map, then the relation map. -/
def TriplesFactory.mapCheck (tf : TriplesFactory) : ℕ → List TriplesFactory → Option FactoryError
  | _, [] => none
  | i, other :: rest =>
    if !dictEqB other.entity_to_id tf.entity_to_id then some (.entityMapMismatch i)
    else if !dictEqB other.relation_to_id tf.relation_to_id then some (.relationMapMismatch i)
    else tf.mapCheck (i + 1) rest

/-- Method TriplesFactory.merge: first verifies that every operand shares this
factory's label maps, raising with the offending operand index, and only then
delegates to the base-class merge (whose count and flag checks run afterwards).
The embedding returns the merged core data. -/
def TriplesFactory.merge (tf : TriplesFactory) (others : List TriplesFactory) :
    Except FactoryError CoreTriplesFactory :=
  match tf.mapCheck 0 others with
  | some e => .error e
  | none => tf.toCoreTriplesFactory.merge (others.map TriplesFactory.toCoreTriplesFactory)

/-- First index of an element in a list (the position assigned by np.unique's
inverse indices: each row's index among the sorted unique rows). -/
def idxOf {α : Type} [DecidableEq α] (a : α) : List α → ℕ
  | [] => 0
  | b :: rest => if b = a then 0 else idxOf a rest + 1

/-- Multiplicity of an element in a list (the duplicate summation performed when a
COO matrix is converted to CSR). -/
def countOcc {α : Type} [DecidableEq α] (a : α) : List α → ℕ
  | [] => 0
  | b :: rest => (if b = a then 1 else 0) + countOcc a rest

/-- Lexicographic order on pairs, the row order of np.unique over pair rows. -/
def pairLe (a b : ℕ × ℕ) : Bool :=
  decide (a.1 < b.1) || (a.1 == b.1 && decide (a.2 ≤ b.2))

/-- Sorted distinct pair rows (np.unique over the row axis). -/
def uniquePairs (l : List (ℕ × ℕ)) : List (ℕ × ℕ) := sortLe pairLe l.dedup

/-- The two non-target columns in ascending order (sorted complement of the target in
range 3). -/
def otherColumns (target : ℕ) : ℕ × ℕ :=
  match target with
  | 0 => (1, 2)
  | 1 => (0, 2)
  | _ => (0, 1)

/-- Column projection of a triple. -/
def colOf (x : Triple) (i : ℕ) : ℕ :=
  match i with
  | 0 => x.1
  | 1 => x.2.1
  | _ => x.2.2

/-- Data produced by LCWAInstances.from_triples: the unique pairs, the shape of the
compressed sparse matrix, and the COO entry list (one entry per input triple:
its pair's row index and its target-column value) whose multiplicities give the
matrix entries after the CSR conversion sums duplicates. -/
structure LCWAInstancesRep where
  pairs : List (ℕ × ℕ)
  shape1 : ℕ
  shape2 : ℕ
  entries : List (ℕ × ℕ)

/-- Classmethod LCWAInstances.from_triples: group the triples by the two non-target
columns (np.unique with inverse indices) and build the sparse multi-label matrix
over the target ID space. -/
def LCWAInstances.from_triples (mapped_triples : List Triple)
    (num_entities num_relations target : ℕ) : LCWAInstancesRep :=
  let oc := otherColumns target
  let proj : Triple → ℕ × ℕ := fun t => (colOf t oc.1, colOf t oc.2)
  let unique_pairs := uniquePairs (mapped_triples.map proj)
  let target_size := if target = 1 then num_relations else num_entities
  { pairs := unique_pairs
    shape1 := unique_pairs.length
    shape2 := target_size
    entries := mapped_triples.map fun t => (idxOf (proj t) unique_pairs, colOf t target) }

/-- Entry of the compressed matrix at (row, col): the summed COO multiplicity. -/
def LCWAInstancesRep.compressedAt (inst : LCWAInstancesRep) (i c : ℕ) : ℕ :=
  countOcc (i, c) inst.entries

/-- Modelled from the spec: split_workload (in pykeen.utils, not under the sources)
assigns this worker's share of the per-epoch workload; with a single worker it is
the whole index range. -/
def split_workload (n : ℕ) : List ℕ := List.range n

/-- Modelled from the spec: torch.utils.data.BatchSampler (collaborator) chunks the
sampler's index stream into batches of batch_size, dropping the final incomplete
batch when drop_last is set (batch_size zero is rejected by torch upfront). -/
def batchSampler (batch_size : ℕ) (drop_last : Bool) (l : List ℕ) : List (List ℕ) :=
  if _h : batch_size = 0 then []
  else if _hl : l.length < batch_size then
    if drop_last || l.isEmpty then [] else [l]
  else (l.take batch_size) :: batchSampler batch_size drop_last (l.drop batch_size)
termination_by l.length
decreasing_by
  simp only [List.length_drop]
  omega

/-- Dunder len of BaseBatchedSLCWAInstances: the quotient of the triple count by the
batch size, plus one iff there is a remainder and drop_last is off. -/
def BaseBatchedSLCWAInstances.num_batches (num_triples batch_size : ℕ) (drop_last : Bool) : ℕ :=
  num_triples / batch_size + if num_triples % batch_size ≠ 0 && !drop_last then 1 else 0

/-- Method BatchedSLCWAInstances.iter_triple_ids: batches over a random permutation of
the workload indices. torch.utils.data.RandomSampler (collaborator, modelled from
the spec: uniform sampling without replacement) emits a permutation perm of the
workload; the theorems quantify over it. -/
def BatchedSLCWAInstances.iter_triple_ids (perm : List ℕ) (batch_size : ℕ) (drop_last : Bool) :
    List (List ℕ) :=
  batchSampler batch_size drop_last perm

/-- Edge-selection step of SubGraphSLCWAInstances.subgraph_sample, run along a finite
prefix of random draws: each draw is a position in the chosen vertex's adjacency
list (whose entries are edge numbers); the loop retries while the drawn edge is
already picked and returns the first unpicked edge it hits, if any. -/
def rejectionResult (adj : List ℕ) (edge_picked : ℕ → Bool) :
    List (Fin adj.length) → Option ℕ
  | [] => none
  | c :: rest =>
    let edge_number := adj.get c
    if edge_picked edge_number then rejectionResult adj edge_picked rest
    else some edge_number

/-- Number of draw sequences of length n on which the rejection loop has not yet
terminated. -/
def nonTermCount (adj : List ℕ) (edge_picked : ℕ → Bool) (n : ℕ) : ℕ :=
  (Finset.univ.filter fun v : Fin n → Fin adj.length =>
    rejectionResult adj edge_picked (List.ofFn v) = none).card

/-- Sample factory used by the concrete witnesses. -/
def sampleFactoryA : CoreTriplesFactory :=
  { toKGInfo := KGInfo.make 2 1 false, mapped_triples := [(0, 0, 1)], metadata := emptyMeta }

/-- Second sample factory with the same configuration as sampleFactoryA. -/
def sampleFactoryB : CoreTriplesFactory :=
  { toKGInfo := KGInfo.make 2 1 false, mapped_triples := [(1, 0, 0)], metadata := emptyMeta }

/-- Sample factory with inverse triples enabled. -/
def sampleFactoryInv : CoreTriplesFactory :=
  { toKGInfo := KGInfo.make 2 1 true, mapped_triples := [(0, 0, 1)], metadata := emptyMeta }

/-- Sample labeled factory used by the witnesses for the label-aware claims. -/
def sampleTF1 : TriplesFactory :=
  { toCoreTriplesFactory := sampleFactoryA
    entity_labeling := Labeling.make [("a", 0), ("b", 1)]
    relation_labeling := Labeling.make [("r", 0)] }

/-- Labeled factory with the same counts as sampleTF1 but a different entity map. -/
def sampleTF2 : TriplesFactory :=
  { toCoreTriplesFactory := sampleFactoryB
    entity_labeling := Labeling.make [("a", 0), ("c", 1)]
    relation_labeling := Labeling.make [("r", 0)] }

/-- The factory produced by from_labeled_triples on the two labeled sample triples
(a, r, b) and (b, r, a), written out for the round-trip witness. -/
def sampleRoundtripTF : TriplesFactory :=
  { toCoreTriplesFactory :=
      { toKGInfo := KGInfo.make 2 1 false
        mapped_triples := [(0, 0, 1), (1, 0, 0)]
        metadata := emptyMeta }
    entity_labeling := Labeling.make [("a", 0), ("b", 1)]
    relation_labeling := Labeling.make [("r", 0)] }

/-! Shared lemmas about the embedded constructor. -/

/-- Constructing from already-mapped ID triples succeeds whenever all IDs are within
the declared bounds, and yields exactly the expected record. -/
theorem make_ok (mt : List Triple) (ne nr : ℕ) (cit : Bool) (md : Meta)
    (h : ∀ x ∈ mt, x.1 < ne ∧ x.2.2 < ne ∧ x.2.1 < nr) :
    CoreTriplesFactory.make mt ne nr cit md =
      .ok { toKGInfo := KGInfo.make ne nr cit, mapped_triples := mt, metadata := md } := by
  have hall : ((ofTriples mt).all fun r => r.length == 3) = true := by
    simp only [ofTriples, List.all_eq_true, List.mem_map]
    rintro r ⟨x, _hx, rfl⟩
    rfl
  have hmap : (ofTriples mt).map row3 = mt.map (fun x => ((x.1 : ℤ), (x.2.1 : ℤ), (x.2.2 : ℤ))) := by
    simp only [ofTriples, List.map_map]
    rfl
  have hvalid :
      valid_triple_id_range (mt.map fun x => ((x.1 : ℤ), (x.2.1 : ℤ), (x.2.2 : ℤ))) ne nr = true := by
    simp only [valid_triple_id_range, Bool.and_eq_true, List.all_eq_true, List.mem_map,
      decide_eq_true_eq]
    refine ⟨⟨?_, ?_⟩, ?_⟩ <;>
      · rintro y ⟨x, hx, rfl⟩
        have hb := h x hx
        dsimp only
        omega
  have hback : (mt.map fun x => ((x.1 : ℤ), (x.2.1 : ℤ), (x.2.2 : ℤ))).map toNatTriple = mt := by
    rw [List.map_map]
    have heq : ∀ x ∈ mt, (toNatTriple ∘ fun x => ((x.1 : ℤ), (x.2.1 : ℤ), (x.2.2 : ℤ))) x = id x := by
      intro x _hx
      simp [toNatTriple]
    rw [List.map_congr_left heq, List.map_id]
  simp only [CoreTriplesFactory.make, CoreTriplesFactory.init, hall, Bool.not_true,
    Bool.false_eq_true, if_false, DType.invalid, hmap, hvalid, if_true, hback]

/-- Inversion for successful construction: the resulting factory is the expected
record and the range validation succeeded. -/
theorem init_ok_inv (rows : List (List ℤ)) (dtype : DType) (ne nr : ℕ) (cit : Bool) (md : Meta)
    (F : CoreTriplesFactory) (hF : CoreTriplesFactory.init rows dtype ne nr cit md = .ok F) :
    F = { toKGInfo := KGInfo.make ne nr cit,
          mapped_triples := (rows.map row3).map toNatTriple, metadata := md } ∧
      valid_triple_id_range (rows.map row3) ne nr = true := by
  unfold CoreTriplesFactory.init at hF
  split at hF
  · exact absurd hF (by simp)
  · split at hF
    · exact absurd hF (by simp)
    · dsimp only at hF
      split at hF
      · rename_i hcond
        injection hF with h
        exact ⟨h.symm, hcond⟩
      · exact absurd hF (by simp)

/-- Claim C1 (evidence for the metadata-precedence bug): clone_and_exchange_triples
with keep_metadata=True keeps the entity and relation counts, but on a metadata
key collision the KEPT metadata value wins over the extra_metadata value, because
the Python dict union lists extra_metadata first; the function's own docstring
(and the spec) promise precedence for extra_metadata. Evaluated at a concrete
failing input: the claim demands value 2 (from extra_metadata), the code yields 1
(the kept value). -/
theorem C1_clone_metadata_kept_value_wins :
    ∃ F, CoreTriplesFactory.clone_and_exchange_triples
        { toKGInfo := KGInfo.make 2 1 false
          mapped_triples := [(0, 0, 1)]
          metadata := fun k => if k = "k" then some 1 else none }
        [(1, 0, 0)] (some fun k => if k = "k" then some 2 else none) true none = .ok F ∧
      F.metadata "k" = some 1 ∧ F.num_entities = 2 ∧ F.num_relations = 1 ∧
      F.create_inverse_triples = false ∧ some (1 : ℤ) ≠ some (2 : ℤ) := by
  refine ⟨_, rfl, rfl, rfl, rfl, rfl, by decide⟩

/-- Claim C7: CoreTriplesFactory construction raises exactly when the input is
invalid (shape without three columns, floating-point or complex dtype, or IDs out
of the declared bounds), a successfully constructed factory never contains
out-of-range IDs, and in particular num_entities=3 with a triple containing
entity ID 5 raises the range error describing the offending column minima and
maxima. -/
theorem C7_core_ctor_validation (rows : List (List ℤ)) (dtype : DType)
    (ne nr : ℕ) (cit : Bool) (md : Meta) :
    ((∃ e, CoreTriplesFactory.init rows dtype ne nr cit md = .error e) ↔
      ¬((rows.all fun r => r.length == 3) = true ∧ dtype.invalid = false ∧
        valid_triple_id_range (rows.map row3) ne nr = true)) ∧
    (∀ F, CoreTriplesFactory.init rows dtype ne nr cit md = .ok F →
      ∀ x ∈ F.mapped_triples, x.1 < ne ∧ x.2.2 < ne ∧ x.2.1 < nr) ∧
    CoreTriplesFactory.init [[0, 0, 5]] .int 3 1 false emptyMeta =
      .error (.invalidRange (0, 0, 5) (0, 0, 5)) := by
  refine ⟨?_, ?_, by rfl⟩
  · unfold CoreTriplesFactory.init
    cases hall : (rows.all fun r => r.length == 3) <;>
      cases hdt : dtype.invalid <;>
        cases hval : valid_triple_id_range (rows.map row3) ne nr <;>
          simp [hall, hdt, hval]
  · intro F hF
    obtain ⟨rfl, hval⟩ := init_ok_inv rows dtype ne nr cit md F hF
    intro x hx
    dsimp only at hx
    simp only [List.mem_map] at hx
    obtain ⟨y, hy, rfl⟩ := hx
    obtain ⟨r, hr, rfl⟩ := hy
    simp only [valid_triple_id_range, Bool.and_eq_true, List.all_eq_true,
      decide_eq_true_eq] at hval
    obtain ⟨⟨hnn, hent⟩, hrel⟩ := hval
    have h01 := hnn (row3 r) (List.mem_map_of_mem row3 hr)
    have h02 := hent (row3 r) (List.mem_map_of_mem row3 hr)
    have h03 := hrel (row3 r) (List.mem_map_of_mem row3 hr)
    simp only [toNatTriple]
    refine ⟨?_, ?_, ?_⟩ <;> omega

/-- The merge compatibility loop accepts exactly when every operand is compatible. -/
theorem mergeCheck_none (tf : CoreTriplesFactory) (others : List CoreTriplesFactory) (i : ℕ)
    (h : ∀ o ∈ others, tf.compatible o) : tf.mergeCheck i others = none := by
  induction others generalizing i with
  | nil => rfl
  | cons o rest ih =>
    obtain ⟨h1, h2, h3⟩ := h o (by simp)
    unfold CoreTriplesFactory.mergeCheck
    rw [if_neg (by simp [h1]), if_neg (by simp [h2]), if_neg (by simp [h3])]
    exact ih (i + 1) (fun o' ho' => h o' (by simp [ho']))

/-- When some operand is incompatible, the merge compatibility loop reports an error
naming an offending operand, offset by the start index. -/
theorem mergeCheck_some (tf : CoreTriplesFactory) (others : List CoreTriplesFactory) (i : ℕ)
    (h : ∃ o ∈ others, ¬ tf.compatible o) :
    ∃ e, tf.mergeCheck i others = some e ∧
      ∃ j, ∃ hj : j < others.length, e.mismatchIndex = some (i + j) ∧
        ¬ tf.compatible (others.get ⟨j, hj⟩) := by
  induction others generalizing i with
  | nil => simp at h
  | cons o rest ih =>
    by_cases hc : tf.compatible o
    · obtain ⟨h1, h2, h3⟩ := hc
      have hrest : ∃ o' ∈ rest, ¬ tf.compatible o' := by
        rcases h with ⟨o', ho', hno⟩
        rcases List.mem_cons.1 ho' with rfl | hmem
        · exact absurd ⟨h1, h2, h3⟩ hno
        · exact ⟨o', hmem, hno⟩
      obtain ⟨e, he, j, hj, hidx, hnc⟩ := ih (i + 1) hrest
      refine ⟨e, ?_, j + 1, by simpa using Nat.succ_lt_succ hj, ?_, ?_⟩
      · unfold CoreTriplesFactory.mergeCheck
        rw [if_neg (by simp [h1]), if_neg (by simp [h2]), if_neg (by simp [h3])]
        exact he
      · rw [hidx]
        congr 1
        omega
      · simpa using hnc
    · by_cases h1 : o.num_entities = tf.num_entities
      swap
      · refine ⟨.numEntitiesMismatch i, ?_, 0, by simp, by
          simp [FactoryError.mismatchIndex], by simpa using hc⟩
        unfold CoreTriplesFactory.mergeCheck
        rw [if_pos h1]
      by_cases h2 : o.num_relations = tf.num_relations
      swap
      · refine ⟨.numRelationsMismatch i, ?_, 0, by simp, by
          simp [FactoryError.mismatchIndex], by simpa using hc⟩
        unfold CoreTriplesFactory.mergeCheck
        rw [if_neg (by simp [h1]), if_pos h2]
      have h3 : o.create_inverse_triples ≠ tf.create_inverse_triples :=
        fun h3 => hc ⟨h1, h2, h3⟩
      refine ⟨.inverseFlagMismatch i, ?_, 0, by simp, by
        simp [FactoryError.mismatchIndex], by simpa using hc⟩
      unfold CoreTriplesFactory.mergeCheck
      rw [if_neg (by simp [h1]), if_neg (by simp [h2]), if_pos h3]

/-- Claim C3: merge raises a configuration-mismatch error naming an offending operand
index whenever some operand differs in num_entities, num_relations or
create_inverse_triples; when all operands match, merge never raises and the
resulting factory's triple count is the sum of all operands' triple counts
(no deduplication is performed). -/
theorem C3_merge_mismatch_or_sum (tf : CoreTriplesFactory) (others : List CoreTriplesFactory)
    (hwf : tf.WF) (hwfo : ∀ o ∈ others, o.WF) :
    ((∃ o ∈ others, ¬ tf.compatible o) →
      ∃ e, tf.merge others = .error e ∧
        ∃ i, ∃ hi : i < others.length, e.mismatchIndex = some i ∧
          ¬ tf.compatible (others.get ⟨i, hi⟩)) ∧
    ((∀ o ∈ others, tf.compatible o) →
      ∃ F, tf.merge others = .ok F ∧
        F.num_triples = tf.num_triples + (others.map CoreTriplesFactory.num_triples).sum) := by
  constructor
  · intro h
    obtain ⟨e, he, j, hj, hidx, hnc⟩ := mergeCheck_some tf others 0 h
    refine ⟨e, ?_, j, hj, by simpa using hidx, hnc⟩
    cases others with
    | nil => simp at h
    | cons o rest =>
      unfold CoreTriplesFactory.merge
      rw [he]
  · intro h
    cases others with
    | nil => exact ⟨tf, rfl, by simp [CoreTriplesFactory.num_triples]⟩
    | cons o rest =>
      have hnone := mergeCheck_none tf (o :: rest) 0 h
      have hreal : ∀ o' ∈ o :: rest, o'.real_num_relations = tf.real_num_relations := by
        intro o' ho'
        obtain ⟨_h1, h2, h3⟩ := h o' ho'
        have hw1 := (hwfo o' ho').2
        have hw2 := hwf.2
        rw [h3] at hw1
        rcases Bool.eq_false_or_eq_true tf.create_inverse_triples with hb | hb <;>
          rw [hb] at hw1 hw2 <;> simp at hw1 hw2 <;> omega
      have hbounds : ∀ x ∈ tf.mapped_triples ++
          ((o :: rest).map CoreTriplesFactory.mapped_triples).flatten,
          x.1 < tf.num_entities ∧ x.2.2 < tf.num_entities ∧ x.2.1 < tf.real_num_relations := by
        intro x hx
        rcases List.mem_append.1 hx with hx | hx
        · exact hwf.1 x hx
        · rw [List.mem_flatten] at hx
          obtain ⟨l, hl, hxl⟩ := hx
          rw [List.mem_map] at hl
          obtain ⟨o', ho', rfl⟩ := hl
          have hb := (hwfo o' ho').1 x hxl
          obtain ⟨h1, _h2, _h3⟩ := h o' ho'
          rw [h1, hreal o' ho'] at hb
          exact hb
      have hmk := make_ok
        (tf.mapped_triples ++ ((o :: rest).map CoreTriplesFactory.mapped_triples).flatten)
        tf.num_entities tf.real_num_relations tf.create_inverse_triples
        (dictUnion emptyMeta tf.metadata) hbounds
      refine ⟨{ toKGInfo := KGInfo.make tf.num_entities tf.real_num_relations
                  tf.create_inverse_triples
                mapped_triples := tf.mapped_triples ++
                  ((o :: rest).map CoreTriplesFactory.mapped_triples).flatten
                metadata := dictUnion emptyMeta tf.metadata }, ?_, ?_⟩
      · unfold CoreTriplesFactory.merge
        rw [hnone]
        unfold CoreTriplesFactory.clone_and_exchange_triples
        simpa using hmk
      · simp only [CoreTriplesFactory.num_triples, List.length_append, List.length_flatten,
          List.map_map]
        rfl

/-- Helper for split: mapping the clone over an enumerated partition succeeds and
produces factories whose inverse flag depends only on the enumeration index. -/
theorem split_enum_ok (tf : CoreTriplesFactory) (hwf : tf.WF) (parts : List (List Triple))
    (hparts : ∀ p ∈ parts, ∀ x ∈ p, x ∈ tf.mapped_triples) (k : ℕ) :
    ∃ fs, ((List.enumFrom k parts).mapM fun p =>
        tf.clone_and_exchange_triples p.2 none true (if p.1 = 0 then none else some false)) =
          .ok fs ∧
      fs.length = parts.length ∧
      ∀ i, ∀ hi : i < fs.length,
        (fs.get ⟨i, hi⟩).create_inverse_triples =
          if k + i = 0 then tf.create_inverse_triples else false := by
  induction parts generalizing k with
  | nil =>
    refine ⟨[], rfl, rfl, ?_⟩
    intro i hi
    simp at hi
  | cons p rest ih =>
    obtain ⟨fs, hfs, hlen, hflag⟩ := ih (fun q hq => hparts q (by simp [hq])) (k + 1)
    have hb : ∀ x ∈ p,
        x.1 < tf.num_entities ∧ x.2.2 < tf.num_entities ∧ x.2.1 < tf.real_num_relations :=
      fun x hx => hwf.1 x (hparts p (by simp) x hx)
    have hgd : (if k = 0 then none else (some false : Option Bool)).getD tf.create_inverse_triples
        = (if k = 0 then tf.create_inverse_triples else false) := by
      by_cases hk : k = 0 <;> simp [hk]
    have hclone : tf.clone_and_exchange_triples p none true
        (if k = 0 then none else some false) =
        .ok { toKGInfo := KGInfo.make tf.num_entities tf.real_num_relations
                (if k = 0 then tf.create_inverse_triples else false)
              mapped_triples := p
              metadata := dictUnion emptyMeta tf.metadata } := by
      unfold CoreTriplesFactory.clone_and_exchange_triples
      rw [hgd]
      simpa using make_ok p tf.num_entities tf.real_num_relations
        (if k = 0 then tf.create_inverse_triples else false)
        (dictUnion emptyMeta tf.metadata) hb
    refine ⟨{ toKGInfo := KGInfo.make tf.num_entities tf.real_num_relations
                (if k = 0 then tf.create_inverse_triples else false)
              mapped_triples := p
              metadata := dictUnion emptyMeta tf.metadata } :: fs,
      ?_, by simpa using hlen, ?_⟩
    · rw [show List.enumFrom k (p :: rest) = (k, p) :: List.enumFrom (k + 1) rest from rfl,
        List.mapM_cons, hclone, hfs]
      rfl
    · intro i hi
      cases i with
      | zero =>
        show (if k = 0 then tf.create_inverse_triples else false) =
          if k + 0 = 0 then tf.create_inverse_triples else false
        rw [Nat.add_zero]
      | succ i =>
        have hlt : i < fs.length := by simpa using Nat.lt_of_succ_lt_succ hi
        have hthis := hflag i hlt
        show (fs.get ⟨i, hlt⟩).create_inverse_triples =
          if k + (i + 1) = 0 then tf.create_inverse_triples else false
        rw [hthis]
        have harith : k + 1 + i = k + (i + 1) := by omega
        rw [harith]

/-- Claim C4: every factory returned by split carries the source's inverse-triple flag
in the first (training) position and false in every later position; stated over an
arbitrary output partition of the underlying splitting routine. -/
theorem C4_split_inverse_flags (tf : CoreTriplesFactory) (parts : List (List Triple))
    (hwf : tf.WF) (hparts : ∀ p ∈ parts, ∀ x ∈ p, x ∈ tf.mapped_triples) :
    ∃ fs, tf.split parts = .ok fs ∧ fs.length = parts.length ∧
      ∀ i, ∀ hi : i < fs.length,
        (fs.get ⟨i, hi⟩).create_inverse_triples =
          if i = 0 then tf.create_inverse_triples else false := by
  obtain ⟨fs, hfs, hlen, hflag⟩ := split_enum_ok tf hwf parts hparts 0
  refine ⟨fs, ?_, hlen, ?_⟩
  · unfold CoreTriplesFactory.split
    exact hfs
  · intro i hi
    simpa using hflag i hi

/-- Witness for claim C3: the theorem applied at a concrete factory and a concrete
singleton operand list with matching configuration. -/
theorem C3_merge_mismatch_or_sum_witness :
    sampleFactoryA.WF ∧ (∀ o ∈ [sampleFactoryB], o.WF) ∧
    (((∃ o ∈ [sampleFactoryB], ¬ sampleFactoryA.compatible o) →
      ∃ e, sampleFactoryA.merge [sampleFactoryB] = .error e ∧
        ∃ i, ∃ hi : i < [sampleFactoryB].length, e.mismatchIndex = some i ∧
          ¬ sampleFactoryA.compatible ([sampleFactoryB].get ⟨i, hi⟩)) ∧
    ((∀ o ∈ [sampleFactoryB], sampleFactoryA.compatible o) →
      ∃ F, sampleFactoryA.merge [sampleFactoryB] = .ok F ∧
        F.num_triples = sampleFactoryA.num_triples +
          ([sampleFactoryB].map CoreTriplesFactory.num_triples).sum)) :=
  ⟨by unfold CoreTriplesFactory.WF sampleFactoryA; decide,
   by unfold CoreTriplesFactory.WF sampleFactoryB; decide,
   C3_merge_mismatch_or_sum sampleFactoryA [sampleFactoryB]
     (by unfold CoreTriplesFactory.WF sampleFactoryA; decide)
     (by unfold CoreTriplesFactory.WF sampleFactoryB; decide)⟩

/-- Witness for claim C4: the theorem applied at a concrete factory and a concrete
two-part partition. -/
theorem C4_split_inverse_flags_witness :
    sampleFactoryInv.WF ∧
    (∀ p ∈ [[((0 : ℕ), (0 : ℕ), (1 : ℕ))], []], ∀ x ∈ p, x ∈ sampleFactoryInv.mapped_triples) ∧
    (∃ fs, sampleFactoryInv.split [[(0, 0, 1)], []] = .ok fs ∧
      fs.length = ([[((0 : ℕ), (0 : ℕ), (1 : ℕ))], []]).length ∧
      ∀ i, ∀ hi : i < fs.length,
        (fs.get ⟨i, hi⟩).create_inverse_triples =
          if i = 0 then sampleFactoryInv.create_inverse_triples else false) :=
  ⟨by unfold CoreTriplesFactory.WF sampleFactoryInv; decide,
   by unfold sampleFactoryInv; decide,
   C4_split_inverse_flags sampleFactoryInv [[(0, 0, 1)], []]
     (by unfold CoreTriplesFactory.WF sampleFactoryInv; decide)
     (by unfold sampleFactoryInv; decide)⟩

/-- Insertion permutes with consing. -/
theorem insertLe_perm {α : Type} (le : α → α → Bool) (a : α) (l : List α) :
    (insertLe le a l).Perm (a :: l) := by
  induction l with
  | nil => exact List.Perm.refl _
  | cons b rest ih =>
    unfold insertLe
    by_cases h : le a b = true
    · rw [if_pos h]
    · rw [if_neg h]
      exact (ih.cons b).trans (List.Perm.swap a b rest)

/-- The insertion sort is a permutation of its input. -/
theorem sortLe_perm {α : Type} (le : α → α → Bool) (l : List α) : (sortLe le l).Perm l := by
  induction l with
  | nil => exact List.Perm.refl _
  | cons a rest ih => exact (insertLe_perm le a (sortLe le rest)).trans (ih.cons a)

/-- Insertion keeps lists of naturals sorted ascending. -/
theorem insertLe_sorted_nat (a : ℕ) (l : List ℕ) (h : l.Sorted (· ≤ ·)) :
    (insertLe (fun x y => decide (x ≤ y)) a l).Sorted (· ≤ ·) := by
  induction l with
  | nil => simp [insertLe]
  | cons b rest ih =>
    rw [List.sorted_cons] at h
    obtain ⟨hb, hrest⟩ := h
    unfold insertLe
    by_cases hab : a ≤ b
    · rw [if_pos (by simpa using hab), List.sorted_cons]
      refine ⟨?_, List.sorted_cons.2 ⟨hb, hrest⟩⟩
      intro c hc
      rcases List.mem_cons.1 hc with rfl | hc
      · exact hab
      · exact le_trans hab (hb c hc)
    · rw [if_neg (by simpa using hab), List.sorted_cons]
      refine ⟨?_, ih hrest⟩
      intro c hc
      have hmem := (insertLe_perm (fun x y => decide (x ≤ y)) a rest).mem_iff.1 hc
      rcases List.mem_cons.1 hmem with rfl | hc'
      · omega
      · exact hb c hc'

/-- The insertion sort of naturals is sorted ascending. -/
theorem sortLe_sorted_nat (l : List ℕ) :
    (sortLe (fun a b => decide (a ≤ b)) l).Sorted (· ≤ ·) := by
  induction l with
  | nil => simp [sortLe]
  | cons a rest ih => exact insertLe_sorted_nat a _ ih

/-- Torch unique: sorted ascending. -/
theorem uniqueNat_sorted (x : List ℕ) : (uniqueNat x).Sorted (· ≤ ·) :=
  sortLe_sorted_nat x.dedup

/-- Torch unique: no duplicates. -/
theorem uniqueNat_nodup (x : List ℕ) : (uniqueNat x).Nodup :=
  ((sortLe_perm (fun a b => decide (a ≤ b)) x.dedup).symm).nodup (List.nodup_dedup x)

/-- Torch unique: same members as the input. -/
theorem uniqueNat_mem (x : List ℕ) (n : ℕ) : n ∈ uniqueNat x ↔ n ∈ x :=
  ((sortLe_perm (fun a b => decide (a ≤ b)) x.dedup).mem_iff).trans (List.mem_dedup)

/-- Every member is bounded by the fold of max. -/
theorem mem_le_foldr_max (x : List ℕ) (n : ℕ) (h : n ∈ x) : n ≤ x.foldr max 0 := by
  induction x with
  | nil => simp at h
  | cons a rest ih =>
    rcases List.mem_cons.1 h with rfl | h
    · exact le_max_left _ _
    · exact le_trans (ih h) (le_max_right _ _)

/-- Claim C6: on a nonempty ID tensor whose present values are exactly the contiguous
range (the source compares the sorted unique values with arange of the inferred
ID count), Condenser.make returns the identity condenser, with falsy bool and a
pass-through application; otherwise it returns a condensation vector that sends
the j-th smallest present ID (the sorted unique values are ascending and without
duplicates) to j and every absent in-range ID to -1. -/
theorem C6_condenser_make (x : List ℕ) (hx : x ≠ []) :
    ((uniqueNat x = List.range (get_num_ids x)) →
      Condenser.make x true = Condenser.empty ∧
      (Condenser.make x true).toBool = false ∧
      ∀ y, (Condenser.make x true).apply y = .ok y) ∧
    ((uniqueNat x ≠ List.range (get_num_ids x)) →
      ∃ v, (Condenser.make x true).condensation = some v ∧
        (uniqueNat x).Sorted (· ≤ ·) ∧ (uniqueNat x).Nodup ∧
        (∀ j, ∀ hj : j < (uniqueNat x).length,
          v.get? ((uniqueNat x).get ⟨j, hj⟩) = some (j : ℤ)) ∧
        (∀ old, old < get_num_ids x → old ∉ x → v.get? old = some (-1))) := by
  have hne : x.isEmpty = false := by
    cases x with
    | nil => exact absurd rfl hx
    | cons a l => rfl
  have hk : get_num_ids x = x.foldr max 0 + 1 := by
    cases x with
    | nil => exact absurd rfl hx
    | cons a l => rfl
  have hcond : (!(true : Bool) || x.isEmpty) = false := by rw [hne]; rfl
  constructor
  · intro hcontig
    have hmake : Condenser.make x true = Condenser.empty := by
      unfold Condenser.make
      rw [hcond]
      simp only [Bool.false_eq_true, if_false]
      rw [if_pos hcontig]
    refine ⟨hmake, ?_, ?_⟩
    · rw [hmake]
      rfl
    · intro y
      rw [hmake]
      rfl
  · intro hnc
    have hmake : Condenser.make x true = Condenser.mk
        (some ((List.range (get_num_ids x)).map fun old =>
          if old ∈ uniqueNat x then ((uniqueNat x).indexOf old : ℤ) else -1)) := by
      unfold Condenser.make
      rw [hcond]
      simp only [Bool.false_eq_true, if_false]
      rw [if_neg hnc]
    refine ⟨_, by rw [hmake], uniqueNat_sorted x, uniqueNat_nodup x, ?_, ?_⟩
    · intro j hj
      have hmem : (uniqueNat x).get ⟨j, hj⟩ ∈ uniqueNat x := List.get_mem (uniqueNat x) j hj
      have hmemx : (uniqueNat x).get ⟨j, hj⟩ ∈ x := (uniqueNat_mem x _).1 hmem
      have hlt : (uniqueNat x).get ⟨j, hj⟩ < get_num_ids x := by
        have := mem_le_foldr_max x _ hmemx
        omega
      rw [List.get?_eq_getElem?, List.getElem?_map, List.getElem?_range hlt]
      simp only [Option.map_some']
      rw [if_pos hmem]
      rw [List.get_indexOf (uniqueNat_nodup x)]
    · intro old hold holdx
      have hnotu : old ∉ uniqueNat x := fun hmem => holdx ((uniqueNat_mem x old).1 hmem)
      rw [List.get?_eq_getElem?, List.getElem?_map, List.getElem?_range hold]
      simp only [Option.map_some']
      rw [if_neg hnotu]

/-- Witness for claim C6: the theorem applied at the concrete non-contiguous ID
tensor containing 0 and 2. -/
theorem C6_condenser_make_witness :
    (([0, 2] : List ℕ) ≠ []) ∧
    (((uniqueNat [0, 2] = List.range (get_num_ids [0, 2])) →
      Condenser.make [0, 2] true = Condenser.empty ∧
      (Condenser.make [0, 2] true).toBool = false ∧
      ∀ y, (Condenser.make [0, 2] true).apply y = .ok y) ∧
    ((uniqueNat [0, 2] ≠ List.range (get_num_ids [0, 2])) →
      ∃ v, (Condenser.make [0, 2] true).condensation = some v ∧
        (uniqueNat [0, 2]).Sorted (· ≤ ·) ∧ (uniqueNat [0, 2]).Nodup ∧
        (∀ j, ∀ hj : j < (uniqueNat [0, 2]).length,
          v.get? ((uniqueNat [0, 2]).get ⟨j, hj⟩) = some (j : ℤ)) ∧
        (∀ old, old < get_num_ids [0, 2] → old ∉ [0, 2] → v.get? old = some (-1)))) :=
  ⟨by decide, C6_condenser_make [0, 2] (by decide)⟩

/-- One unfolding of the batch sampler when a full batch remains. -/
theorem batchSampler_true_cons (b : ℕ) (hb : b ≠ 0) (l : List ℕ) (h : b ≤ l.length) :
    batchSampler b true l = l.take b :: batchSampler b true (l.drop b) := by
  rw [batchSampler]
  rw [dif_neg hb, dif_neg (by omega)]

/-- The batch sampler with drop_last drops a final incomplete batch. -/
theorem batchSampler_true_small (b : ℕ) (hb : b ≠ 0) (l : List ℕ) (h : l.length < b) :
    batchSampler b true l = [] := by
  rw [batchSampler]
  rw [dif_neg hb, dif_pos h]
  simp

/-- With drop_last, the number of batches is the integer quotient. -/
theorem batchSampler_true_length (b : ℕ) (hb : b ≠ 0) (l : List ℕ) :
    (batchSampler b true l).length = l.length / b := by
  by_cases h : l.length < b
  · rw [batchSampler_true_small b hb l h]
    simp [Nat.div_eq_of_lt h]
  · rw [batchSampler_true_cons b hb l (by omega)]
    have ih := batchSampler_true_length b hb (l.drop b)
    rw [List.length_cons, ih, List.length_drop,
      Nat.div_eq_sub_div (show 0 < b by omega) (show b ≤ l.length by omega)]
termination_by l.length
decreasing_by
  simp only [List.length_drop]
  omega

/-- With drop_last, every emitted batch has exactly batch_size elements and inherits
freedom from duplicates from the index stream. -/
theorem batchSampler_true_mem (b : ℕ) (hb : b ≠ 0) (l : List ℕ) (c : List ℕ)
    (hc : c ∈ batchSampler b true l) : c.length = b ∧ (l.Nodup → c.Nodup) := by
  by_cases h : l.length < b
  · rw [batchSampler_true_small b hb l h] at hc
    simp at hc
  · rw [batchSampler_true_cons b hb l (by omega)] at hc
    rcases List.mem_cons.1 hc with rfl | hc
    · constructor
      · rw [List.length_take]
        omega
      · intro hnd
        exact (List.take_sublist b l).nodup hnd
    · have ih := batchSampler_true_mem b hb (l.drop b) c hc
      exact ⟨ih.1, fun hnd => ih.2 ((List.drop_sublist b l).nodup hnd)⟩
termination_by l.length
decreasing_by
  simp only [List.length_drop]
  omega

/-- Claim C8: BatchedSLCWAInstances with drop_last=True over n triples reports n / b
batches and yields exactly n / b batches, each a list of exactly b distinct
positive-triple indices (without replacement within the batch); quantified over
the permutation emitted by the random sampler. -/
theorem C8_batched_slcwa_batches (n b : ℕ) (perm : List ℕ) (hb : 0 < b)
    (hperm : perm.Perm (split_workload n)) :
    BaseBatchedSLCWAInstances.num_batches n b true = n / b ∧
    (BatchedSLCWAInstances.iter_triple_ids perm b true).length = n / b ∧
    ∀ c ∈ BatchedSLCWAInstances.iter_triple_ids perm b true, c.length = b ∧ c.Nodup := by
  have hlen : perm.length = n := by simpa [split_workload] using hperm.length_eq
  have hnd : perm.Nodup :=
    hperm.symm.nodup (by simpa [split_workload] using List.nodup_range n)
  refine ⟨?_, ?_, ?_⟩
  · unfold BaseBatchedSLCWAInstances.num_batches
    simp
  · unfold BatchedSLCWAInstances.iter_triple_ids
    rw [batchSampler_true_length b (by omega) perm, hlen]
  · intro c hc
    have hm := batchSampler_true_mem b (by omega) perm c hc
    exact ⟨hm.1, hm.2 hnd⟩

/-- Witness for claim C8: the theorem applied at five triples, batch size two, and a
concrete permutation. -/
theorem C8_batched_slcwa_batches_witness :
    (0 < 2) ∧ ([4, 2, 0, 1, 3] : List ℕ).Perm (split_workload 5) ∧
    (BaseBatchedSLCWAInstances.num_batches 5 2 true = 5 / 2 ∧
     (BatchedSLCWAInstances.iter_triple_ids [4, 2, 0, 1, 3] 2 true).length = 5 / 2 ∧
     ∀ c ∈ BatchedSLCWAInstances.iter_triple_ids [4, 2, 0, 1, 3] 2 true,
       c.length = 2 ∧ c.Nodup) :=
  ⟨by decide, by decide,
   C8_batched_slcwa_batches 5 2 [4, 2, 0, 1, 3] (by decide) (by decide)⟩

/-- Sorted deduplication has no duplicate rows. -/
theorem sortDedup_nodup {α : Type} [DecidableEq α] (le : α → α → Bool) (l : List α) :
    (sortLe le l.dedup).Nodup :=
  (sortLe_perm le l.dedup).symm.nodup (List.nodup_dedup l)

/-- Sorted deduplication preserves membership. -/
theorem sortDedup_mem {α : Type} [DecidableEq α] (le : α → α → Bool) (l : List α) (a : α) :
    a ∈ sortLe le l.dedup ↔ a ∈ l :=
  (sortLe_perm le l.dedup).mem_iff.trans List.mem_dedup

/-- The first index of a member is within bounds. -/
theorem idxOf_lt_length {α : Type} [DecidableEq α] (a : α) (l : List α) (h : a ∈ l) :
    idxOf a l < l.length := by
  induction l with
  | nil => simp at h
  | cons b rest ih =>
    unfold idxOf
    by_cases hb : b = a
    · rw [if_pos hb]
      simp
    · rw [if_neg hb]
      have hr : a ∈ rest := by
        rcases List.mem_cons.1 h with rfl | hr
        · exact absurd rfl hb
        · exact hr
      simpa using ih hr

/-- Reading a list at the first index of a member gives the member back. -/
theorem getElem?_idxOf {α : Type} [DecidableEq α] (a : α) (l : List α) (h : a ∈ l) :
    l[idxOf a l]? = some a := by
  induction l with
  | nil => simp at h
  | cons b rest ih =>
    by_cases hb : b = a
    · simp [idxOf, hb]
    · have hr : a ∈ rest := by
        rcases List.mem_cons.1 h with rfl | hr
        · exact absurd rfl hb
        · exact hr
      simp [idxOf, hb, ih hr]

/-- On a duplicate-free list, the first index of the element at position i is i. -/
theorem idxOf_getElem? {α : Type} [DecidableEq α] (l : List α) (hnd : l.Nodup) (i : ℕ) (a : α)
    (h : l[i]? = some a) : idxOf a l = i := by
  induction l generalizing i with
  | nil => simp at h
  | cons b rest ih =>
    rw [List.nodup_cons] at hnd
    cases i with
    | zero =>
      rw [List.getElem?_cons_zero] at h
      injection h with h
      subst h
      simp [idxOf]
    | succ j =>
      rw [List.getElem?_cons_succ] at h
      have ha : a ∈ rest := by
        have hj : j < rest.length := by
          by_contra hj
          rw [List.getElem?_eq_none (by omega)] at h
          exact Option.noConfusion h
        rw [List.getElem?_eq_getElem hj] at h
        injection h with h
        rw [← h]
        exact List.getElem_mem hj
      have hb : ¬ b = a := fun hba => hnd.1 (by rw [hba]; exact ha)
      simp [idxOf, hb, ih hnd.2 j h]

/-- Multiplicity of an absent element is zero. -/
theorem countOcc_eq_zero {α : Type} [DecidableEq α] (a : α) (l : List α) (h : a ∉ l) :
    countOcc a l = 0 := by
  induction l with
  | nil => rfl
  | cons b rest ih =>
    have hb : ¬ b = a := by
      intro hba
      apply h
      rw [← hba]
      exact List.mem_cons_self b rest
    simp [countOcc, hb, ih (fun ha => h (List.mem_cons_of_mem b ha))]

/-- Multiplicity of a member of a duplicate-free list is one. -/
theorem countOcc_eq_one {α : Type} [DecidableEq α] (a : α) (l : List α) (hnd : l.Nodup)
    (h : a ∈ l) : countOcc a l = 1 := by
  induction l with
  | nil => simp at h
  | cons b rest ih =>
    rw [List.nodup_cons] at hnd
    rcases List.mem_cons.1 h with rfl | hr
    · have hnin : a ∉ rest := hnd.1
      simp [countOcc, countOcc_eq_zero a rest hnin]
    · have hb : ¬ b = a := fun hba => hnd.1 (by rw [hba]; exact hr)
      simp [countOcc, hb, ih hnd.2 hr]

/-- Multiplicity transport along a map that hits the counted value exactly on one
preimage pattern. -/
theorem countOcc_map_eq {α β : Type} [DecidableEq α] [DecidableEq β] (f : α → β)
    (l : List α) (bb : β) (aa : α) (h : ∀ x ∈ l, f x = bb ↔ x = aa) :
    countOcc bb (l.map f) = countOcc aa l := by
  induction l with
  | nil => rfl
  | cons x rest ih =>
    have hx := h x (by simp)
    have hrest := ih (fun y hy => h y (by simp [hy]))
    by_cases hfx : f x = bb
    · have hxa : x = aa := hx.1 hfx
      subst hxa
      simp [countOcc, hfx, hrest]
    · have hxa : ¬ x = aa := fun hxa => hfx (hx.2 hxa)
      simp [countOcc, hfx, hxa, hrest]

/-- Row content of the LCWA COO matrix for target=tail: the summed multiplicity at
(row i, column c) is one exactly when the i-th unique pair co-occurs with tail c
in the (deduplicated) input triples, and zero otherwise. -/
theorem lcwa_row_count (mt : List Triple) (hnd : mt.Nodup) (i c : ℕ)
    (hi : i < (uniquePairs (mt.map fun t => (t.1, t.2.1))).length) :
    countOcc (i, c) (mt.map fun t =>
      (idxOf (t.1, t.2.1) (uniquePairs (mt.map fun t' => (t'.1, t'.2.1))), t.2.2)) =
    (if (((uniquePairs (mt.map fun t => (t.1, t.2.1))).get ⟨i, hi⟩).1,
        ((uniquePairs (mt.map fun t => (t.1, t.2.1))).get ⟨i, hi⟩).2, c) ∈ mt
      then 1 else 0) := by
  have hnodupP : (uniquePairs (mt.map fun t' => (t'.1, t'.2.1))).Nodup :=
    sortDedup_nodup pairLe _
  have hgetP : (uniquePairs (mt.map fun t' => (t'.1, t'.2.1)))[i]? =
      some ((uniquePairs (mt.map fun t' => (t'.1, t'.2.1))).get ⟨i, hi⟩) := by
    rw [List.getElem?_eq_getElem hi]
    rfl
  have hpoint : ∀ x ∈ mt,
      ((idxOf (x.1, x.2.1) (uniquePairs (mt.map fun t' => (t'.1, t'.2.1))), x.2.2) = (i, c)) ↔
      (x = (((uniquePairs (mt.map fun t' => (t'.1, t'.2.1))).get ⟨i, hi⟩).1,
        ((uniquePairs (mt.map fun t' => (t'.1, t'.2.1))).get ⟨i, hi⟩).2, c)) := by
    intro x hx
    obtain ⟨a, b, d⟩ := x
    simp only [Prod.mk.injEq]
    constructor
    · rintro ⟨hidx, hd⟩
      have hmem : ((a, b) : ℕ × ℕ) ∈ uniquePairs (mt.map fun t' => (t'.1, t'.2.1)) :=
        (sortDedup_mem pairLe _ _).2 (List.mem_map_of_mem _ hx)
      have hsome := getElem?_idxOf (a, b) _ hmem
      rw [hidx, hgetP] at hsome
      have hsome2 : (uniquePairs (mt.map fun t' => (t'.1, t'.2.1))).get ⟨i, hi⟩ = (a, b) :=
        Option.some.inj hsome
      rw [hsome2]
      exact And.intro rfl (And.intro rfl hd)
    · rintro ⟨ha, hb, hd⟩
      refine ⟨?_, hd⟩
      have hpair : ((a, b) : ℕ × ℕ) =
          (uniquePairs (mt.map fun t' => (t'.1, t'.2.1))).get ⟨i, hi⟩ := by
        rw [ha, hb]
      rw [hpair]
      exact idxOf_getElem? _ hnodupP i _ hgetP
  rw [countOcc_map_eq _ mt (i, c)
    (((uniquePairs (mt.map fun t' => (t'.1, t'.2.1))).get ⟨i, hi⟩).1,
      ((uniquePairs (mt.map fun t' => (t'.1, t'.2.1))).get ⟨i, hi⟩).2, c) hpoint]
  by_cases hmem : (((uniquePairs (mt.map fun t => (t.1, t.2.1))).get ⟨i, hi⟩).1,
      ((uniquePairs (mt.map fun t => (t.1, t.2.1))).get ⟨i, hi⟩).2, c) ∈ mt
  · rw [if_pos hmem]
    exact countOcc_eq_one _ _ hnd hmem
  · rw [if_neg hmem]
    exact countOcc_eq_zero _ _ hmem

/-- Claim C5: for target=tail over deduplicated triples, the compressed matrix has
shape (number of unique pairs, num_entities), its pairs are exactly the distinct
(head, relation) combinations, row i holds a one exactly at each tail co-occurring
with pair i and zero elsewhere; and on [(0,0,1),(0,0,2),(1,0,2)] over 3 entities
and 1 relation there are 2 pairs and the row of pair (0,0) has ones exactly at
positions 1 and 2. -/
theorem C5_lcwa_target_matrix (mt : List Triple) (ne nr : ℕ) (hnd : mt.Nodup) :
    ((LCWAInstances.from_triples mt ne nr 2).shape1 =
        (LCWAInstances.from_triples mt ne nr 2).pairs.length ∧
      (LCWAInstances.from_triples mt ne nr 2).shape2 = ne ∧
      (LCWAInstances.from_triples mt ne nr 2).pairs.Nodup ∧
      (∀ p, p ∈ (LCWAInstances.from_triples mt ne nr 2).pairs ↔
        ∃ t ∈ mt, (t.1, t.2.1) = p) ∧
      (∀ i, ∀ hi : i < (LCWAInstances.from_triples mt ne nr 2).pairs.length, ∀ c,
        (LCWAInstances.from_triples mt ne nr 2).compressedAt i c =
          (if (((LCWAInstances.from_triples mt ne nr 2).pairs.get ⟨i, hi⟩).1,
              ((LCWAInstances.from_triples mt ne nr 2).pairs.get ⟨i, hi⟩).2, c) ∈ mt
            then 1 else 0))) ∧
    ((LCWAInstances.from_triples [(0, 0, 1), (0, 0, 2), (1, 0, 2)] 3 1 2).pairs =
        [(0, 0), (1, 0)] ∧
      (LCWAInstances.from_triples [(0, 0, 1), (0, 0, 2), (1, 0, 2)] 3 1 2).pairs.length = 2 ∧
      ∀ c, c < 3 →
        (LCWAInstances.from_triples [(0, 0, 1), (0, 0, 2), (1, 0, 2)] 3 1 2).compressedAt 0 c =
          (if c = 1 ∨ c = 2 then 1 else 0)) := by
  constructor
  · refine ⟨rfl, rfl, sortDedup_nodup pairLe _, ?_, ?_⟩
    · intro p
      exact (sortDedup_mem pairLe _ p).trans List.mem_map
    · intro i hi c
      exact lcwa_row_count mt hnd i c hi
  · exact ⟨by decide, by decide, by decide⟩

/-- Witness for claim C5: the theorem applied at the concrete deduplicated triple
list of the spec's example. -/
theorem C5_lcwa_target_matrix_witness :
    ([((0 : ℕ), (0 : ℕ), (1 : ℕ)), (0, 0, 2), (1, 0, 2)] : List Triple).Nodup ∧
    ((LCWAInstances.from_triples [(0, 0, 1), (0, 0, 2), (1, 0, 2)] 3 1 2).pairs =
        [(0, 0), (1, 0)] ∧
      (LCWAInstances.from_triples [(0, 0, 1), (0, 0, 2), (1, 0, 2)] 3 1 2).pairs.length = 2 ∧
      ∀ c, c < 3 →
        (LCWAInstances.from_triples [(0, 0, 1), (0, 0, 2), (1, 0, 2)] 3 1 2).compressedAt 0 c =
          (if c = 1 ∨ c = 2 then 1 else 0)) :=
  ⟨by decide,
   (C5_lcwa_target_matrix [(0, 0, 1), (0, 0, 2), (1, 0, 2)] 3 1 (by decide)).2⟩

/-- The rejection loop finds no exit along a draw sequence iff every drawn edge is
already picked. -/
theorem rejectionResult_none_iff (adj : List ℕ) (edge_picked : ℕ → Bool)
    (cs : List (Fin adj.length)) :
    rejectionResult adj edge_picked cs = none ↔ ∀ c ∈ cs, edge_picked (adj.get c) = true := by
  induction cs with
  | nil => simp [rejectionResult]
  | cons c rest ih =>
    unfold rejectionResult
    by_cases hc : edge_picked (adj.get c) = true
    · simp only [hc, if_true]
      rw [ih]
      constructor
      · intro h c' hc'
        rcases List.mem_cons.1 hc' with rfl | hc'
        · exact hc
        · exact h c' hc'
      · intro h c' hc'
        exact h c' (List.mem_cons_of_mem c hc')
    · rw [Bool.not_eq_true] at hc
      simp only [hc, Bool.false_eq_true, if_false]
      constructor
      · intro h
        exact Option.noConfusion h
      · intro h
        exact absurd (h c (List.mem_cons_self c rest)) (by rw [hc]; simp)

/-- The number of length-n draw sequences avoiding every unpicked edge is the count of
picked positions raised to n. -/
theorem nonTermCount_eq (adj : List ℕ) (edge_picked : ℕ → Bool) (n : ℕ) :
    nonTermCount adj edge_picked n =
      (Finset.univ.filter fun i : Fin adj.length => edge_picked (adj.get i) = true).card ^ n := by
  unfold nonTermCount
  have hiff : ∀ v : Fin n → Fin adj.length,
      (rejectionResult adj edge_picked (List.ofFn v) = none) ↔
        ∀ k, edge_picked (adj.get (v k)) = true := by
    intro v
    rw [rejectionResult_none_iff]
    constructor
    · intro h k
      exact h (v k) ((List.mem_ofFn v (v k)).2 ⟨k, rfl⟩)
    · intro h c hc
      rw [List.mem_ofFn] at hc
      obtain ⟨k, rfl⟩ := hc
      exact h k
  have hset : (Finset.univ.filter fun v : Fin n → Fin adj.length =>
      rejectionResult adj edge_picked (List.ofFn v) = none) =
      (Finset.univ.filter fun v : Fin n → Fin adj.length =>
        ∀ k, edge_picked (adj.get (v k)) = true) := by
    apply Finset.filter_congr
    intro v _
    exact hiff v
  rw [hset, ← Fintype.card_subtype]
  have e : {v : Fin n → Fin adj.length // ∀ k, edge_picked (adj.get (v k)) = true} ≃
      (Fin n → {i : Fin adj.length // edge_picked (adj.get i) = true}) :=
    { toFun := fun v k => ⟨v.1 k, v.2 k⟩
      invFun := fun g => ⟨fun k => (g k).1, fun k => (g k).2⟩
      left_inv := fun v => rfl
      right_inv := fun g => rfl }
  rw [Fintype.card_congr e, Fintype.card_fun, Fintype.card_subtype, Fintype.card_fin]

/-- Claim C9: if every edge in the chosen vertex's adjacency list is already picked,
the rejection-sampling retry loop never terminates, whatever the random draws; if
some incident edge is unpicked, the fraction of length-n draw sequences on which
the loop has not yet terminated tends to zero (termination with probability one
under the uniform draws). -/
theorem C9_subgraph_rejection_termination (adj : List ℕ) (edge_picked : ℕ → Bool)
    (hadj : adj ≠ []) :
    ((∀ i : Fin adj.length, edge_picked (adj.get i) = true) →
      ∀ cs : List (Fin adj.length), rejectionResult adj edge_picked cs = none) ∧
    ((∃ i : Fin adj.length, edge_picked (adj.get i) = false) →
      Filter.Tendsto (fun n => (nonTermCount adj edge_picked n : ℝ) / (adj.length : ℝ) ^ n)
        Filter.atTop (nhds 0)) := by
  constructor
  · intro hall cs
    rw [rejectionResult_none_iff]
    intro c _
    exact hall c
  · rintro ⟨i0, hi0⟩
    have hd : 0 < adj.length := List.length_pos.2 hadj
    have hmlt : (Finset.univ.filter fun i : Fin adj.length =>
        edge_picked (adj.get i) = true).card < adj.length := by
      have hsub : (Finset.univ.filter fun i : Fin adj.length =>
          edge_picked (adj.get i) = true) ⊂ Finset.univ := by
        rw [Finset.ssubset_univ_iff]
        intro heq
        have hmem := Finset.mem_filter.1 (heq ▸ Finset.mem_univ i0)
        rw [hi0] at hmem
        exact Bool.noConfusion hmem.2
      have hcard := Finset.card_lt_card hsub
      rwa [Finset.card_univ, Fintype.card_fin] at hcard
    have hfun : ∀ n, (nonTermCount adj edge_picked n : ℝ) / (adj.length : ℝ) ^ n =
        (((Finset.univ.filter fun i : Fin adj.length =>
          edge_picked (adj.get i) = true).card : ℝ) / (adj.length : ℝ)) ^ n := by
      intro n
      rw [nonTermCount_eq, div_pow]
      push_cast
      rfl
    simp only [hfun]
    apply tendsto_pow_atTop_nhds_zero_of_lt_one
    · positivity
    · rw [div_lt_one (by exact_mod_cast hd)]
      exact_mod_cast hmlt

/-- Witness for claim C9: the theorem applied at a single-edge adjacency list whose
only edge is already picked. -/
theorem C9_subgraph_rejection_termination_witness :
    (([5] : List ℕ) ≠ []) ∧
    (((∀ i : Fin ([5] : List ℕ).length, (fun _ => true) (([5] : List ℕ).get i) = true) →
      ∀ cs : List (Fin ([5] : List ℕ).length),
        rejectionResult [5] (fun _ => true) cs = none) ∧
    ((∃ i : Fin ([5] : List ℕ).length, (fun _ => true) (([5] : List ℕ).get i) = false) →
      Filter.Tendsto
        (fun n => (nonTermCount [5] (fun _ => true) n : ℝ) / (([5] : List ℕ).length : ℝ) ^ n)
        Filter.atTop (nhds 0))) :=
  ⟨by decide, C9_subgraph_rejection_termination [5] (fun _ => true) (by decide)⟩

/-- When some operand's label maps differ, the label-map check loop of
TriplesFactory.merge reports a label-mismatch error naming an offending operand,
offset by the start index. -/
theorem mapCheck_some (tf : TriplesFactory) (others : List TriplesFactory) (i : ℕ)
    (h : ∃ o ∈ others, dictEqB o.entity_to_id tf.entity_to_id = false ∨
      dictEqB o.relation_to_id tf.relation_to_id = false) :
    ∃ e, tf.mapCheck i others = some e ∧
      ∃ j, ∃ hj : j < others.length,
        (e = .entityMapMismatch (i + j) ∨ e = .relationMapMismatch (i + j)) ∧
        e.mismatchIndex = some (i + j) ∧
        (dictEqB (others.get ⟨j, hj⟩).entity_to_id tf.entity_to_id = false ∨
          dictEqB (others.get ⟨j, hj⟩).relation_to_id tf.relation_to_id = false) := by
  induction others generalizing i with
  | nil => simp at h
  | cons o rest ih =>
    by_cases he : dictEqB o.entity_to_id tf.entity_to_id = false
    · refine ⟨.entityMapMismatch i, ?_, 0, by simp, ?_, by
        simp [FactoryError.mismatchIndex], by simpa using Or.inl he⟩
      · unfold TriplesFactory.mapCheck
        rw [if_pos (by rw [he]; rfl)]
      · simp
    · have he' : dictEqB o.entity_to_id tf.entity_to_id = true := by
        cases hb : dictEqB o.entity_to_id tf.entity_to_id
        · exact absurd hb he
        · rfl
      by_cases hr : dictEqB o.relation_to_id tf.relation_to_id = false
      · refine ⟨.relationMapMismatch i, ?_, 0, by simp, ?_, by
          simp [FactoryError.mismatchIndex], by simpa using Or.inr hr⟩
        · unfold TriplesFactory.mapCheck
          rw [if_neg (by rw [he']; simp), if_pos (by rw [hr]; rfl)]
        · simp
      · have hr' : dictEqB o.relation_to_id tf.relation_to_id = true := by
          cases hb : dictEqB o.relation_to_id tf.relation_to_id
          · exact absurd hb hr
          · rfl
        have hrest : ∃ o' ∈ rest, dictEqB o'.entity_to_id tf.entity_to_id = false ∨
            dictEqB o'.relation_to_id tf.relation_to_id = false := by
          rcases h with ⟨o', ho', hno⟩
          rcases List.mem_cons.1 ho' with rfl | hmem
          · rcases hno with hno | hno
            · exact absurd hno (by rw [he']; simp)
            · exact absurd hno (by rw [hr']; simp)
          · exact ⟨o', hmem, hno⟩
        obtain ⟨e, he2, j, hj, hctor, hidx, hnc⟩ := ih (i + 1) hrest
        refine ⟨e, ?_, j + 1, by simpa using Nat.succ_lt_succ hj, ?_, ?_, by simpa using hnc⟩
        · unfold TriplesFactory.mapCheck
          rw [if_neg (by rw [he']; simp), if_neg (by rw [hr']; simp)]
          exact he2
        · rcases hctor with hc | hc <;> rw [hc]
          · exact Or.inl (by rw [show i + 1 + j = i + (j + 1) from by omega])
          · exact Or.inr (by rw [show i + 1 + j = i + (j + 1) from by omega])
        · rw [hidx]
          congr 1
          omega

/-- Claim C10: TriplesFactory.merge raises a label-mismatch error naming an offending
operand index whenever any operand's entity or relation label map differs from
this factory's under Python dict equality, regardless of whether counts or the
inverse flag also differ: the label-map check runs before the base-class
count/flag checks, so the error is always an entity/relation-map mismatch. -/
theorem C10_label_merge_precheck (tf : TriplesFactory) (others : List TriplesFactory)
    (h : ∃ o ∈ others, dictEqB o.entity_to_id tf.entity_to_id = false ∨
      dictEqB o.relation_to_id tf.relation_to_id = false) :
    ∃ e, tf.merge others = .error e ∧
      ∃ j, ∃ hj : j < others.length,
        (e = .entityMapMismatch j ∨ e = .relationMapMismatch j) ∧
        e.mismatchIndex = some j ∧
        (dictEqB (others.get ⟨j, hj⟩).entity_to_id tf.entity_to_id = false ∨
          dictEqB (others.get ⟨j, hj⟩).relation_to_id tf.relation_to_id = false) := by
  obtain ⟨e, he, j, hj, hctor, hidx, hnc⟩ := mapCheck_some tf others 0 h
  refine ⟨e, ?_, j, hj, by simpa using hctor, by simpa using hidx, hnc⟩
  unfold TriplesFactory.merge
  rw [he]

/-- Witness for claim C10: the theorem applied at two concrete factories with equal
counts and inverse flags but different entity label maps. -/
theorem C10_label_merge_precheck_witness :
    (∃ o ∈ [sampleTF2], dictEqB o.entity_to_id sampleTF1.entity_to_id = false ∨
      dictEqB o.relation_to_id sampleTF1.relation_to_id = false) ∧
    (sampleTF2.num_entities = sampleTF1.num_entities ∧
      sampleTF2.num_relations = sampleTF1.num_relations ∧
      sampleTF2.create_inverse_triples = sampleTF1.create_inverse_triples) ∧
    (∃ e, sampleTF1.merge [sampleTF2] = .error e ∧
      ∃ j, ∃ hj : j < [sampleTF2].length,
        (e = .entityMapMismatch j ∨ e = .relationMapMismatch j) ∧
        e.mismatchIndex = some j ∧
        (dictEqB ([sampleTF2].get ⟨j, hj⟩).entity_to_id sampleTF1.entity_to_id = false ∨
          dictEqB ([sampleTF2].get ⟨j, hj⟩).relation_to_id sampleTF1.relation_to_id = false)) :=
  ⟨by decide, by decide, C10_label_merge_precheck sampleTF1 [sampleTF2] (by decide)⟩

/-- A successful association lookup yields an entry of the list. -/
theorem assocLookup_mem {α β : Type} [BEq α] [LawfulBEq α] (k : α) (v : β)
    (l : List (α × β)) (h : List.lookup k l = some v) : (k, v) ∈ l := by
  induction l with
  | nil => simp at h
  | cons p rest ih =>
    obtain ⟨a, b⟩ := p
    simp only [List.lookup] at h
    cases hak : k == a with
    | true =>
      rw [hak] at h
      injection h with h
      subst h
      have hka : k = a := eq_of_beq hak
      rw [hka]
      exact List.mem_cons_self _ _
    | false =>
      rw [hak] at h
      exact List.mem_cons_of_mem _ (ih h)

/-- Looking an ID up in the inverted map succeeds whenever some label maps to it, and
returns such a label. -/
theorem swap_lookup_mem (E : LabelMap) (id : ℕ) (hid : ∃ l, (l, id) ∈ E) :
    ∃ l, List.lookup id (E.map fun p => (p.2, p.1)) = some l ∧ (l, id) ∈ E := by
  induction E with
  | nil => simp at hid
  | cons p rest ih =>
    obtain ⟨a, v⟩ := p
    by_cases hv : id = v
    · subst hv
      refine ⟨a, ?_, List.mem_cons_self _ _⟩
      simp [List.lookup]
    · have hbe : (id == v) = false := by simpa using hv
      obtain ⟨l, hl⟩ := hid
      rcases List.mem_cons.1 hl with heq | hmem
      · exact absurd (congrArg (fun q : String × ℕ => q.2) heq) hv
      · obtain ⟨l', hlook, hmem'⟩ := ih ⟨l, hmem⟩
        refine ⟨l', ?_, List.mem_cons_of_mem _ hmem'⟩
        simpa [List.lookup, hbe] using hlook

/-- With unique keys, membership determines the lookup result. -/
theorem lookup_of_mem_nodupKeys (E : LabelMap) (hk : (E.map fun p => p.1).Nodup)
    (l : String) (id : ℕ) (h : (l, id) ∈ E) : List.lookup l E = some id := by
  induction E with
  | nil => simp at h
  | cons p rest ih =>
    obtain ⟨a, v⟩ := p
    rw [List.map_cons, List.nodup_cons] at hk
    by_cases hal : l = a
    · subst hal
      rcases List.mem_cons.1 h with heq | hmem
      · have hv : v = id := by
          have := congrArg (fun q : String × ℕ => q.2) heq
          simpa using this.symm
        simp [List.lookup, hv]
      · exact absurd (List.mem_map_of_mem (fun p : String × ℕ => p.1) hmem) hk.1
    · have hbe : (l == a) = false := by simpa using hal
      have hmem : (l, id) ∈ rest := by
        rcases List.mem_cons.1 h with heq | hmem
        · exact absurd (congrArg (fun q : String × ℕ => q.1) heq) hal
        · exact hmem
      simpa [List.lookup, hbe] using ih hk.2 hmem

/-- Labeling an ID that some label maps to, then looking the label up again, returns
the original ID (regardless of which label the inverted map picked). -/
theorem label_then_lookup (E : LabelMap) (hk : (E.map fun p => p.1).Nodup) (id : ℕ)
    (u : String) (hid : ∃ l, (l, id) ∈ E) :
    lookupOrNeg E ((Labeling.make E).label id u) = (id : ℤ) := by
  obtain ⟨l, hlook, hmem⟩ := swap_lookup_mem E id hid
  have hlabel : (Labeling.make E).label id u = l := by
    unfold Labeling.label Labeling.make
    rw [hlook]
    rfl
  rw [hlabel]
  unfold lookupOrNeg
  rw [lookup_of_mem_nodupKeys E hk l id hmem]

/-- A nonnegative defaulted lookup comes from a successful lookup. -/
theorem lookupOrNeg_nonneg (m : LabelMap) (k : String) (h : 0 ≤ lookupOrNeg m k) :
    ∃ v, List.lookup k m = some v ∧ lookupOrNeg m k = (v : ℤ) := by
  unfold lookupOrNeg at h ⊢
  cases hl : List.lookup k m with
  | none =>
    rw [hl] at h
    simp at h
  | some v => exact ⟨v, rfl, rfl⟩

/-- Every ID column of a mapped triple factors through the corresponding label map. -/
theorem mapped_ids_mem (triples : List LTriple) (E R : LabelMap) (x : Triple)
    (hx : x ∈ map_triples_elements_to_ids triples E R) :
    (∃ l, (l, x.1) ∈ E) ∧ (∃ l, (l, x.2.1) ∈ R) ∧ (∃ l, (l, x.2.2) ∈ E) := by
  unfold map_triples_elements_to_ids at hx
  split at hx
  · simp at hx
  · have hx1 := (sortDedup_mem tripleLe _ x).1 hx
    rw [List.mem_map] at hx1
    obtain ⟨y, hy, rfl⟩ := hx1
    rw [List.mem_filter] at hy
    obtain ⟨hyr, hypos⟩ := hy
    rw [List.mem_map] at hyr
    obtain ⟨t, _ht, rfl⟩ := hyr
    simp only [Bool.and_eq_true, decide_eq_true_eq] at hypos
    obtain ⟨⟨h1, h2⟩, h3⟩ := hypos
    obtain ⟨v1, hl1, he1⟩ := lookupOrNeg_nonneg E t.1 h1
    obtain ⟨v2, hl2, he2⟩ := lookupOrNeg_nonneg R t.2.1 h2
    obtain ⟨v3, hl3, he3⟩ := lookupOrNeg_nonneg E t.2.2 h3
    refine ⟨⟨t.1, ?_⟩, ⟨t.2.1, ?_⟩, ⟨t.2.2, ?_⟩⟩
    · have := assocLookup_mem t.1 v1 E hl1
      simpa [toNatTriple, he1] using this
    · have := assocLookup_mem t.2.1 v2 R hl2
      simpa [toNatTriple, he2] using this
    · have := assocLookup_mem t.2.2 v3 E hl3
      simpa [toNatTriple, he3] using this

/-- Cast of validated triples to raw rows and back is the identity. -/
theorem rows_cast_roundtrip (mt : List Triple) :
    ((ofTriples mt).map row3).map toNatTriple = mt := by
  have hmap : (ofTriples mt).map row3 = mt.map (fun x => ((x.1 : ℤ), (x.2.1 : ℤ), (x.2.2 : ℤ))) := by
    simp only [ofTriples, List.map_map]
    rfl
  rw [hmap, List.map_map]
  have heq : ∀ x ∈ mt, (toNatTriple ∘ fun x => ((x.1 : ℤ), (x.2.1 : ℤ), (x.2.2 : ℤ))) x = id x := by
    intro x _hx
    simp [toNatTriple]
  rw [List.map_congr_left heq, List.map_id]

/-- Inversion for successful TriplesFactory construction. -/
theorem tf_init_ok_inv (mapped : List Triple) (e2i r2i : LabelMap) (cit : Bool) (md : Meta)
    (F : TriplesFactory) (h : TriplesFactory.init mapped e2i r2i cit md = .ok F) :
    F.entity_labeling = Labeling.make e2i ∧ F.relation_labeling = Labeling.make r2i ∧
    F.mapped_triples = mapped := by
  unfold TriplesFactory.init at h
  split at h
  · exact absurd h (by simp)
  · dsimp only at h
    split at h
    · exact absurd h (by simp)
    · rename_i core hcore
      injection h with h
      obtain ⟨hrec, _⟩ := init_ok_inv _ _ _ _ _ _ core hcore
      rw [← h]
      refine ⟨rfl, rfl, ?_⟩
      show core.mapped_triples = mapped
      rw [hrec]
      exact rows_cast_roundtrip mapped

/-- Round trip at the level of the raw mapping function: labelling a list of ID
triples whose IDs all factor through the maps, then mapping the labels back,
reproduces exactly the original row set. -/
theorem roundtrip_core (E R : LabelMap) (M : List Triple) (ue ur : String)
    (hek : (E.map fun p => p.1).Nodup) (hrk : (R.map fun p => p.1).Nodup)
    (hM1 : ∀ x ∈ M, (∃ l, (l, x.1) ∈ E) ∧ (∃ l, (l, x.2.1) ∈ R) ∧ (∃ l, (l, x.2.2) ∈ E)) :
    ∀ x, x ∈ map_triples_elements_to_ids
        (if M.isEmpty then [] else M.map fun w =>
          ((Labeling.make E).label w.1 ue, (Labeling.make R).label w.2.1 ur,
            (Labeling.make E).label w.2.2 ue)) E R ↔ x ∈ M := by
  intro x
  have hchain : ∀ w ∈ M,
      (lookupOrNeg E ((Labeling.make E).label w.1 ue),
        lookupOrNeg R ((Labeling.make R).label w.2.1 ur),
        lookupOrNeg E ((Labeling.make E).label w.2.2 ue)) =
      ((w.1 : ℤ), (w.2.1 : ℤ), (w.2.2 : ℤ)) := by
    intro w hw
    obtain ⟨h1, h2, h3⟩ := hM1 w hw
    rw [label_then_lookup E hek w.1 ue h1, label_then_lookup R hrk w.2.1 ur h2,
      label_then_lookup E hek w.2.2 ue h3]
  cases hMe : M.isEmpty with
  | true =>
    have hM : M = [] := by
      cases M with
      | nil => rfl
      | cons a l => exact Bool.noConfusion hMe
    subst hM
    simp [map_triples_elements_to_ids]
  | false =>
    simp only [Bool.false_eq_true, if_false]
    have hLne : (M.map fun w =>
        ((Labeling.make E).label w.1 ue, (Labeling.make R).label w.2.1 ur,
          (Labeling.make E).label w.2.2 ue)).isEmpty = false := by
      cases M with
      | nil => exact Bool.noConfusion hMe
      | cons a l => rfl
    unfold map_triples_elements_to_ids
    rw [hLne]
    simp only [Bool.false_eq_true, if_false]
    constructor
    · intro hx
      have hx1 := (sortDedup_mem tripleLe _ x).1 hx
      rw [List.mem_map] at hx1
      obtain ⟨y, hy, rfl⟩ := hx1
      rw [List.mem_filter] at hy
      obtain ⟨hyr, _⟩ := hy
      rw [List.mem_map] at hyr
      obtain ⟨t, ht, rfl⟩ := hyr
      rw [List.mem_map] at ht
      obtain ⟨w, hw, rfl⟩ := ht
      show toNatTriple
        (lookupOrNeg E ((Labeling.make E).label w.1 ue),
          lookupOrNeg R ((Labeling.make R).label w.2.1 ur),
          lookupOrNeg E ((Labeling.make E).label w.2.2 ue)) ∈ M
      rw [hchain w hw]
      simpa [toNatTriple] using hw
    · intro hx
      apply (sortDedup_mem tripleLe _ x).2
      rw [List.mem_map]
      refine ⟨((x.1 : ℤ), (x.2.1 : ℤ), (x.2.2 : ℤ)), ?_, by simp [toNatTriple]⟩
      rw [List.mem_filter]
      constructor
      · rw [List.mem_map]
        refine ⟨((Labeling.make E).label x.1 ue, (Labeling.make R).label x.2.1 ur,
          (Labeling.make E).label x.2.2 ue), ?_, ?_⟩
        · rw [List.mem_map]
          exact ⟨x, hx, rfl⟩
        · exact hchain x hx
      · simp

/-- Claim C2: for every TriplesFactory built by from_labeled_triples (whose label maps
are Python dicts, hence with unique keys), labelling its mapped triples and then
mapping the labels back through the factory reproduces exactly the set of rows of
the original mapped triples (deduplicated and order-tolerant, as np.unique
reorders). -/
theorem C2_label_map_roundtrip (triples : List LTriple) (cit : Bool)
    (entity_to_id relation_to_id : Option LabelMap) (filt : Bool) (md : Meta)
    (F : TriplesFactory) (ue ur : String)
    (hok : TriplesFactory.from_labeled_triples triples cit entity_to_id relation_to_id
      filt md = .ok F)
    (hek : (F.entity_to_id.map fun p => p.1).Nodup)
    (hrk : (F.relation_to_id.map fun p => p.1).Nodup) :
    ∀ x, x ∈ F.map_triples (F.label_triples F.mapped_triples ue ur) ↔
      x ∈ F.mapped_triples := by
  obtain ⟨hel, hrl, hmt⟩ := tf_init_ok_inv _ _ _ cit md F hok
  have hek' : ((F.entity_labeling.label_to_id).map fun p => p.1).Nodup := hek
  have hrk' : ((F.relation_labeling.label_to_id).map fun p => p.1).Nodup := hrk
  have hM1 : ∀ x ∈ F.mapped_triples,
      (∃ l, (l, x.1) ∈ F.entity_labeling.label_to_id) ∧
      (∃ l, (l, x.2.1) ∈ F.relation_labeling.label_to_id) ∧
      (∃ l, (l, x.2.2) ∈ F.entity_labeling.label_to_id) := by
    intro x hx
    rw [hmt] at hx
    have := mapped_ids_mem _ _ _ x hx
    rw [hel, hrl]
    exact this
  intro x
  have hcore := roundtrip_core F.entity_labeling.label_to_id F.relation_labeling.label_to_id
    F.mapped_triples ue ur hek' hrk' hM1 x
  have hlab : F.label_triples F.mapped_triples ue ur =
      (if F.mapped_triples.isEmpty then [] else F.mapped_triples.map fun w =>
        ((Labeling.make F.entity_labeling.label_to_id).label w.1 ue,
          (Labeling.make F.relation_labeling.label_to_id).label w.2.1 ur,
          (Labeling.make F.entity_labeling.label_to_id).label w.2.2 ue)) := by
    unfold TriplesFactory.label_triples
    rw [hel, hrl]
    rfl
  unfold TriplesFactory.map_triples TriplesFactory.entity_to_id TriplesFactory.relation_to_id
  rw [hlab]
  exact hcore

/-- Witness for claim C2: the theorem applied at the two concrete labeled triples
(a, r, b) and (b, r, a), whose factory is sampleRoundtripTF. -/
theorem C2_label_map_roundtrip_witness :
    TriplesFactory.from_labeled_triples [("a", "r", "b"), ("b", "r", "a")] false none none
      true emptyMeta = .ok sampleRoundtripTF ∧
    (sampleRoundtripTF.entity_to_id.map fun p => p.1).Nodup ∧
    (sampleRoundtripTF.relation_to_id.map fun p => p.1).Nodup ∧
    ∀ x, x ∈ sampleRoundtripTF.map_triples
        (sampleRoundtripTF.label_triples sampleRoundtripTF.mapped_triples
          "[UNKNOWN]" "[UNKNOWN]") ↔
      x ∈ sampleRoundtripTF.mapped_triples :=
  ⟨rfl, by decide, by decide,
   C2_label_map_roundtrip [("a", "r", "b"), ("b", "r", "a")] false none none true emptyMeta
     sampleRoundtripTF "[UNKNOWN]" "[UNKNOWN]" rfl (by decide) (by decide)⟩

end Pykeen
